import Mathlib

/-!
Verification of the shard-routing subsystem of tempo-s3-shard: the
consistent-hash ring (`internal/hash`), the routing-key derivation and
the multi-partition listing aggregation (`internal/server`).

The Go code is shallowly embedded: machine `uint32` values are `Nat`
with explicit reduction modulo `2 ^ 32` where overflow matters, Go maps
are association lists where a later insertion shadows an earlier one,
and Go's `crypto/sha256` is embedded by its standard (FIPS 180-4)
byte-level definition.
-/

namespace TempoS3Shard

/-! ## SHA-256 over byte lists (the semantics of Go's `crypto/sha256`) -/

/-- Reduce to an unsigned 32-bit value. -/
def w32 (n : Nat) : Nat := n % 4294967296

/-- 32-bit addition. -/
def add32 (a b : Nat) : Nat := w32 (a + b)

/-- 32-bit rotate right (inputs are < 2^32). -/
def rotr32 (x n : Nat) : Nat := w32 ((x >>> n) ||| (x <<< (32 - n)))

def ch32 (x y z : Nat) : Nat := (x &&& y) ^^^ ((x ^^^ 4294967295) &&& z)

def maj32 (x y z : Nat) : Nat := (x &&& y) ^^^ (x &&& z) ^^^ (y &&& z)

def bigSigma0 (x : Nat) : Nat := rotr32 x 2 ^^^ rotr32 x 13 ^^^ rotr32 x 22

def bigSigma1 (x : Nat) : Nat := rotr32 x 6 ^^^ rotr32 x 11 ^^^ rotr32 x 25

def smallSigma0 (x : Nat) : Nat := rotr32 x 7 ^^^ rotr32 x 18 ^^^ (x >>> 3)

def smallSigma1 (x : Nat) : Nat := rotr32 x 17 ^^^ rotr32 x 19 ^^^ (x >>> 10)

/-- The 64 SHA-256 round constants (FIPS 180-4 §4.2.2), in decimal. -/
def sha256K : List Nat :=
  [1116352408, 1899447441, 3049323471, 3921009573, 961987163,
   1508970993, 2453635748, 2870763221, 3624381080, 310598401,
   607225278, 1426881987, 1925078388, 2162078206, 2614888103,
   3248222580, 3835390401, 4022224774, 264347078, 604807628,
   770255983, 1249150122, 1555081692, 1996064986, 2554220882,
   2821834349, 2952996808, 3210313671, 3336571891, 3584528711,
   113926993, 338241895, 666307205, 773529912, 1294757372,
   1396182291, 1695183700, 1986661051, 2177026350, 2456956037,
   2730485921, 2820302411, 3259730800, 3345764771, 3516065817,
   3600352804, 4094571909, 275423344, 430227734, 506948616,
   659060556, 883997877, 958139571, 1322822218, 1537002063,
   1747873779, 1955562222, 2024104815, 2227730452, 2361852424,
   2428436474, 2756734187, 3204031479, 3329325298]

/-- The SHA-256 initial hash value (FIPS 180-4 §5.3.3), in decimal. -/
def sha256H0 : List Nat :=
  [1779033703, 3144134277, 1013904242, 2773480762, 1359893119,
   2600822924, 528734635, 1541459225]

/-- The 8 bytes of `n % 2^64`, big-endian. -/
def be64 (n : Nat) : List Nat :=
  [(n >>> 56) % 256, (n >>> 48) % 256, (n >>> 40) % 256, (n >>> 32) % 256,
   (n >>> 24) % 256, (n >>> 16) % 256, (n >>> 8) % 256, n % 256]

/-- SHA-256 padding: append `0x80`, zero bytes up to 56 mod 64, then the
bit length as a big-endian 64-bit integer. -/
def padMessage (msg : List Nat) : List Nat :=
  let L := msg.length
  let z := (119 - L % 64) % 64
  msg ++ 0x80 :: List.replicate z 0 ++ be64 ((8 * L) % 18446744073709551616)

/-- Group a byte list into big-endian 32-bit words. -/
def bytesToWords : List Nat → List Nat
  | b0 :: b1 :: b2 :: b3 :: rest =>
      (((b0 * 256 + b1) * 256 + b2) * 256 + b3) :: bytesToWords rest
  | _ => []

/-- Split a byte list into 64-byte blocks; the fuel is an upper bound on
the number of blocks and only makes the recursion structural. -/
def chunks64Fuel : Nat → List Nat → List (List Nat)
  | _, [] => []
  | 0, _ => []
  | fuel + 1, l => l.take 64 :: chunks64Fuel fuel (l.drop 64)

/-- Split the padded message into 64-byte blocks. -/
def chunks64 (l : List Nat) : List (List Nat) :=
  chunks64Fuel l.length l

/-- Extend the 16 message words to 64 by the SHA-256 message schedule. -/
def schedRounds : Nat → List Nat → List Nat
  | 0, w => w
  | n + 1, w =>
      let i := w.length
      let nw := add32 (add32 (smallSigma1 (w.getD (i - 2) 0)) (w.getD (i - 7) 0))
                      (add32 (smallSigma0 (w.getD (i - 15) 0)) (w.getD (i - 16) 0))
      schedRounds n (w ++ [nw])

/-- One SHA-256 compression round on the 8-word state. -/
def compressRound (st : List Nat) (kw : Nat × Nat) : List Nat :=
  match st with
  | [a, b, c, d, e, f, g, h] =>
      let t1 := add32 h (add32 (bigSigma1 e) (add32 (ch32 e f g) (add32 kw.1 kw.2)))
      let t2 := add32 (bigSigma0 a) (maj32 a b c)
      [add32 t1 t2, a, b, c, add32 d t1, e, f, g]
  | st => st

/-- Process one 64-byte block. -/
def processBlock (h : List Nat) (block : List Nat) : List Nat :=
  let w := schedRounds 48 (bytesToWords block)
  let st := (sha256K.zip w).foldl compressRound h
  (h.zip st).map (fun p => add32 p.1 p.2)

/-- SHA-256 digest of a byte list as 8 32-bit words. -/
def sha256Words (msg : List Nat) : List Nat :=
  (chunks64 (padMessage msg)).foldl processBlock sha256H0

/-- The 4 bytes of a 32-bit word, big-endian. -/
def wordBytes (w : Nat) : List Nat :=
  [(w >>> 24) % 256, (w >>> 16) % 256, (w >>> 8) % 256, w % 256]

/-- SHA-256 digest of a byte list as 32 bytes. -/
def sha256Bytes (msg : List Nat) : List Nat :=
  ((sha256Words msg).map wordBytes).flatten

/-- UTF-8 encoding of one character, as Go's `[]byte(s)` produces it. -/
def utf8Bytes (c : Char) : List Nat :=
  let n := c.toNat
  if n < 0x80 then [n]
  else if n < 0x800 then
    [0xC0 ||| (n >>> 6), 0x80 ||| (n &&& 0x3F)]
  else if n < 0x10000 then
    [0xE0 ||| (n >>> 12), 0x80 ||| ((n >>> 6) &&& 0x3F), 0x80 ||| (n &&& 0x3F)]
  else
    [0xF0 ||| (n >>> 18), 0x80 ||| ((n >>> 12) &&& 0x3F),
     0x80 ||| ((n >>> 6) &&& 0x3F), 0x80 ||| (n &&& 0x3F)]

/-- The UTF-8 bytes of a string (Go's `[]byte(s)`). -/
def strBytes (s : String) : List Nat :=
  (s.data.map utf8Bytes).flatten

/-! ## The consistent-hash ring (`internal/hash/consistent.go`) -/

/-- The ring state, mirroring the Go struct `ConsistentHash`.  `replicas`
is a Go `int` (may be non-positive); `keys` holds `uint32` ring points as
`Nat`; `hashMap` is the Go map `uint32 -> string`, modelled as an
association list where the most recent insertion stands first (a later
insertion into a Go map overwrites an earlier one). -/
structure ConsistentHash where
  replicas : Int
  keys : List Nat
  hashMap : List (Nat × String)
  buckets : List String
deriving DecidableEq

/-- Reading a Go map (`ch.hashMap[k]`): the most recently inserted value
for `k`, or the zero value `""` when `k` is absent. -/
def mapGet (m : List (Nat × String)) (k : Nat) : String :=
  match m.find? (fun p => p.1 == k) with
  | some p => p.2
  | none => ""

/-- `hash` of `ConsistentHash`: the first 4 bytes of the SHA-256 digest of
the key, assembled big-endian into a `uint32`
(`uint32(h[0])<<24 | uint32(h[1])<<16 | uint32(h[2])<<8 | uint32(h[3])`). -/
def hash (key : String) : Nat :=
  let h := sha256Bytes (strBytes key)
  (h.getD 0 0 <<< 24) ||| (h.getD 1 0 <<< 16) ||| (h.getD 2 0 <<< 8) ||| h.getD 3 0

/-- `addBucket`: for `i` from `0` while `i < replicas`, append the point
`hash(bucket + strconv.Itoa(i))` and map it to the bucket; then sort the
points ascending (`sort.Slice`; on `Nat` values the ascending sorted
permutation is unique, so any correct sort yields Go's result). -/
def addBucket (ch : ConsistentHash) (bucket : String) : ConsistentHash :=
  let ch' := (List.range ch.replicas.toNat).foldl
    (fun c i =>
      let key := hash (bucket ++ toString i)
      { c with keys := c.keys ++ [key], hashMap := (key, bucket) :: c.hashMap })
    ch
  { ch' with keys := List.insertionSort (fun a b => a ≤ b) ch'.keys }

/-- `NewConsistentHash`: record the parameters and insert every bucket. -/
def NewConsistentHash (replicas : Int) (buckets : List String) : ConsistentHash :=
  buckets.foldl addBucket
    { replicas := replicas, keys := [], hashMap := [], buckets := buckets }

/-- Go's `strings.SplitN(s, sep, n)` for a single-character separator and
`n ≥ 0`: at most `n` substrings, the last one holding the unsplit rest. -/
def goSplitN (sep : Char) : Nat → List Char → List (List Char)
  | 0, _ => []
  | 1, s => [s]
  | n + 2, s =>
      match splitFirst sep s with
      | none => [s]
      | some (pre, post) => pre :: goSplitN sep (n + 1) post
where
  /-- Split at the first occurrence of `sep`, if any. -/
  splitFirst (sep : Char) : List Char → Option (List Char × List Char)
    | [] => none
    | c :: cs =>
        if c = sep then some ([], cs)
        else (splitFirst sep cs).map (fun p => (c :: p.1, p.2))

/-- `extractHashKey`: `strings.SplitN(key, "/", 3)`; when at least two
parts exist return `parts[0] + "/" + parts[1]`, else the key unchanged. -/
def extractHashKey (key : String) : String :=
  match goSplitN '/' 3 key.data with
  | p0 :: p1 :: _ => String.mk (p0 ++ '/' :: p1)
  | _ => key

/-- The loop of Go's `sort.Search`, narrowing `[i, j)` by halving; the
fuel is an upper bound on `j - i` (the width strictly shrinks every
iteration) and only makes the recursion structural. -/
def sortSearchAux (f : Nat → Bool) : Nat → Nat → Nat → Nat
  | 0, i, _ => i
  | fuel + 1, i, j =>
      if i < j then
        let m := (i + j) / 2
        if f m then sortSearchAux f fuel i m else sortSearchAux f fuel (m + 1) j
      else i

/-- Go's `sort.Search(n, f)`: binary search for the least `i < n` with
`f i = true` (assuming `f` monotone), or `n` when there is none. -/
def sortSearch (n : Nat) (f : Nat → Bool) : Nat := sortSearchAux f n 0 n

/-- `GetBucket`: empty ring yields `""`; otherwise hash the extracted
routing key, binary-search the first point `≥` the hash, wrap to index 0
when the search ran off the end, and read that point's bucket. -/
def GetBucket (ch : ConsistentHash) (key : String) : String :=
  if ch.keys.length = 0 then ""
  else
    let hashKey := extractHashKey key
    let h := hash hashKey
    let idx := sortSearch ch.keys.length (fun i => h ≤ ch.keys.getD i 0)
    let idx' := if idx = ch.keys.length then 0 else idx
    mapGet ch.hashMap (ch.keys.getD idx' 0)

/-- `GetAllBuckets`: the configured bucket list, construction order. -/
def GetAllBuckets (ch : ConsistentHash) : List String := ch.buckets

/-! ## Listing aggregation (`internal/server/server.go`, `handleListObjects`) -/

/-- One listed object, the fields of `minio.ObjectInfo` that the handler
renders (`Key`, `LastModified`, `ETag`, `Size`); the timestamp is kept as
its formatted string. -/
structure ObjectInfo where
  key : String
  lastModified : String
  etag : String
  size : Int
deriving DecidableEq

/-- The fan-out loop of `handleListObjects`: iterate the partitions in
`GetAllBuckets` order; each partition's listing either yields its entries
or fails (minio surfaces a listing failure as an error item on the object
channel, which the loop logs and skips with `continue`), so a failing
partition contributes no entries and one logged failure, modelled as a
recorded `(bucket, error)` pair. -/
def aggregateList (results : List (String × Except String (List ObjectInfo))) :
    List ObjectInfo × List (String × String) :=
  results.foldl
    (fun acc pr =>
      match pr.2 with
      | .ok objs => (acc.1 ++ objs, acc.2)
      | .error e => (acc.1, acc.2 ++ [(pr.1, e)]))
    ([], [])

/-- A decimal digit's value. -/
def digVal (c : Char) : Option Nat :=
  if '0' ≤ c ∧ c ≤ '9' then some (c.toNat - '0'.toNat) else none

/-- Decimal value of a digit list, `none` when empty or non-digit. -/
def decNat (cs : List Char) : Option Nat :=
  if cs = [] then none
  else
    cs.foldl
      (fun acc c =>
        match acc, digVal c with
        | some n, some d => some (n * 10 + d)
        | _, _ => none)
      (some 0)

/-- Go's `strconv.Atoi`: optional sign, decimal digits, error on empty or
malformed input or 64-bit signed overflow. -/
def goAtoi (s : String) : Except Unit Int :=
  let signed : Bool × List Char :=
    match s.data with
    | '+' :: rest => (false, rest)
    | '-' :: rest => (true, rest)
    | rest => (false, rest)
  match decNat signed.2 with
  | none => Except.error ()
  | some n =>
      let v : Int := if signed.1 then -(n : Int) else (n : Int)
      if v < -(2 ^ 63) ∨ 2 ^ 63 - 1 < v then Except.error () else Except.ok v

/-- The fields of the `ListBucketResult` XML that `handleListObjects`
emits: the echoed request parameters, the literal
`<IsTruncated>false</IsTruncated>`, every aggregated entry as a
`<Contents>` element, and the (never populated) common prefixes. -/
structure ListObjectsResponse where
  name : String
  pfx : String
  marker : String
  maxKeys : Int
  isTruncated : Bool
  contents : List ObjectInfo
  commonPrefixes : List String
deriving DecidableEq

/-- `handleListObjects`: parse `max-keys` (default 1000, a parsed value is
used only when valid and positive), aggregate all partitions' listings,
and build the response; `maxKeys` is only echoed, never applied. -/
def handleListObjects (bucketName pfx maxKeysStr marker : String)
    (results : List (String × Except String (List ObjectInfo))) :
    ListObjectsResponse :=
  let maxKeys : Int :=
    if maxKeysStr = "" then 1000
    else
      match goAtoi maxKeysStr with
      | Except.ok mk => if 0 < mk then mk else 1000
      | Except.error _ => 1000
  let agg := aggregateList results
  { name := bucketName, pfx := pfx, marker := marker, maxKeys := maxKeys,
    isTruncated := false, contents := agg.1, commonPrefixes := [] }

/-! ## Aggregation lemmas -/

/-- Closed form of the fan-out fold: the entries are the concatenation of
the successful partitions' entries in partition order, the failures are
the failing partitions' errors in partition order. -/
theorem aggregateList_foldl (rs : List (String × Except String (List ObjectInfo)))
    (acc : List ObjectInfo × List (String × String)) :
    rs.foldl
      (fun acc pr =>
        match pr.2 with
        | .ok objs => (acc.1 ++ objs, acc.2)
        | .error e => (acc.1, acc.2 ++ [(pr.1, e)]))
      acc =
    (acc.1 ++ (rs.map fun pr =>
        match pr.2 with
        | .ok objs => objs
        | .error _ => ([] : List ObjectInfo)).flatten,
     acc.2 ++ rs.filterMap fun pr =>
        match pr.2 with
        | .ok _ => none
        | .error e => some (pr.1, e)) := by
  induction rs generalizing acc with
  | nil => simp
  | cons hd tl ih =>
      obtain ⟨b, res⟩ := hd
      cases res with
      | ok objs => simp [List.foldl_cons, ih, List.append_assoc]
      | error e => simp [List.foldl_cons, ih, List.append_assoc]

theorem aggregateList_eq (rs : List (String × Except String (List ObjectInfo))) :
    aggregateList rs =
    ((rs.map fun pr =>
        match pr.2 with
        | .ok objs => objs
        | .error _ => ([] : List ObjectInfo)).flatten,
     rs.filterMap fun pr =>
        match pr.2 with
        | .ok _ => none
        | .error e => some (pr.1, e)) := by
  simpa using aggregateList_foldl rs ([], [])

/-- Claim C2: when exactly one partition's listing fails, the aggregated
listing returns all entries of every other partition (in order), records
exactly one failure, for the failing partition, and still produces a
result (no overall failure). -/
theorem aggregation_complete_under_one_failure
    (pre post : List (String × List ObjectInfo)) (b e : String) :
    aggregateList
        ((pre.map fun p => (p.1, Except.ok p.2)) ++
          (b, Except.error e) :: (post.map fun p => (p.1, Except.ok p.2))) =
      ((pre.map fun p => p.2).flatten ++ (post.map fun p => p.2).flatten,
       [(b, e)]) := by
  rw [aggregateList_eq]
  have hnil : ∀ (l : List (String × List ObjectInfo)),
      l.filterMap (fun _ => (none : Option (String × String))) = [] := by
    intro l
    simp
  simp [List.map_map, List.filterMap_append, List.filterMap_cons,
    Function.comp_def, hnil]

/-- Claim C8: with every partition's listing succeeding, the aggregated
listing is the concatenation of the partitions' entry lists in partition
order, each partition's own order preserved, with no re-sorting and no
failures. -/
theorem aggregation_ordering (ress : List (String × List ObjectInfo)) :
    aggregateList (ress.map fun p => (p.1, Except.ok p.2)) =
      ((ress.map fun p => p.2).flatten, []) := by
  rw [aggregateList_eq]
  simp [List.map_map, Function.comp_def]

/-- Claim C9: the listing response always reports `IsTruncated = false`
and carries every aggregated entry; the `max-keys` parameter is parsed
and echoed but never truncates the contents, which are the same for every
`max-keys` value. -/
theorem listing_never_truncated (bucketName pfx maxKeysStr marker : String)
    (results : List (String × Except String (List ObjectInfo))) :
    (handleListObjects bucketName pfx maxKeysStr marker results).isTruncated = false ∧
    (handleListObjects bucketName pfx maxKeysStr marker results).contents =
      (aggregateList results).1 ∧
    ∀ s1 s2 : String,
      (handleListObjects bucketName pfx s1 marker results).contents =
        (handleListObjects bucketName pfx s2 marker results).contents := by
  refine ⟨rfl, rfl, fun s1 s2 => rfl⟩

/-! ## Routing-key derivation lemmas -/

theorem splitFirst_eq_none (sep : Char) (a : List Char) (ha : sep ∉ a) :
    goSplitN.splitFirst sep a = none := by
  induction a with
  | nil => rfl
  | cons c cs ih =>
      have hc : ¬c = sep := fun h => ha (h ▸ List.mem_cons_self c cs)
      have hcs : sep ∉ cs := fun h => ha (List.mem_cons_of_mem c h)
      simp [goSplitN.splitFirst, hc, ih hcs]

theorem splitFirst_append (sep : Char) (a rest : List Char) (ha : sep ∉ a) :
    goSplitN.splitFirst sep (a ++ sep :: rest) = some (a, rest) := by
  induction a with
  | nil => simp [goSplitN.splitFirst]
  | cons c cs ih =>
      have hc : ¬c = sep := fun h => ha (h ▸ List.mem_cons_self c cs)
      have hcs : sep ∉ cs := fun h => ha (List.mem_cons_of_mem c h)
      simp [goSplitN.splitFirst, hc, ih hcs]

theorem goSplitN3_of_two_seps (sep : Char) (a b r : List Char)
    (ha : sep ∉ a) (hb : sep ∉ b) :
    goSplitN sep 3 (a ++ sep :: (b ++ sep :: r)) = [a, b, r] := by
  simp [goSplitN, splitFirst_append sep a _ ha, splitFirst_append sep b _ hb]

theorem goSplitN3_of_one_sep (sep : Char) (a b : List Char)
    (ha : sep ∉ a) (hb : sep ∉ b) :
    goSplitN sep 3 (a ++ sep :: b) = [a, b] := by
  simp [goSplitN, splitFirst_append sep a _ ha, splitFirst_eq_none sep b hb]

theorem goSplitN3_of_no_sep (sep : Char) (s : List Char) (hs : sep ∉ s) :
    goSplitN sep 3 s = [s] := by
  simp [goSplitN, splitFirst_eq_none sep s hs]

/-- Claim C4: the routing key of an object key with at least two
`/`-delimited segments is the first two segments joined by `/`, whatever
remains after the second `/` being kept intact in the third split part
and ignored; a key with fewer than two segments is returned unchanged,
e.g. `extractHashKey "simple-file" = "simple-file"`. -/
theorem derive_routing_key (a b r : List Char) (ha : '/' ∉ a) (hb : '/' ∉ b)
    (s : String) (hs : '/' ∉ s.data) :
    extractHashKey (String.mk (a ++ '/' :: (b ++ '/' :: r))) = String.mk (a ++ '/' :: b) ∧
    extractHashKey (String.mk (a ++ '/' :: b)) = String.mk (a ++ '/' :: b) ∧
    extractHashKey s = s ∧
    extractHashKey "simple-file" = "simple-file" := by
  refine ⟨?_, ?_, ?_, by decide⟩
  · show (match goSplitN '/' 3 (a ++ '/' :: (b ++ '/' :: r)) with
      | p0 :: p1 :: _ => String.mk (p0 ++ '/' :: p1)
      | _ => String.mk (a ++ '/' :: (b ++ '/' :: r))) = String.mk (a ++ '/' :: b)
    rw [goSplitN3_of_two_seps '/' a b r ha hb]
  · show (match goSplitN '/' 3 (a ++ '/' :: b) with
      | p0 :: p1 :: _ => String.mk (p0 ++ '/' :: p1)
      | _ => String.mk (a ++ '/' :: b)) = String.mk (a ++ '/' :: b)
    rw [goSplitN3_of_one_sep '/' a b ha hb]
  · show (match goSplitN '/' 3 s.data with
      | p0 :: p1 :: _ => String.mk (p0 ++ '/' :: p1)
      | _ => s) = s
    rw [goSplitN3_of_no_sep '/' s.data hs]

/-- Claim C5: two object keys that share their first two `/`-delimited
segments (the first two parts of the 3-limited split) are routed to the
same partition, for every valid configuration. -/
theorem route_prefix_grouping (r : Int) (B : List String) (hB : B ≠ []) (hr : 0 < r)
    (k1 k2 : String) (h1 : 2 ≤ (goSplitN '/' 3 k1.data).length)
    (h12 : (goSplitN '/' 3 k1.data).take 2 = (goSplitN '/' 3 k2.data).take 2) :
    GetBucket (NewConsistentHash r B) k1 = GetBucket (NewConsistentHash r B) k2 := by
  have he : extractHashKey k1 = extractHashKey k2 := by
    unfold extractHashKey
    match hs1 : goSplitN '/' 3 k1.data, hs2 : goSplitN '/' 3 k2.data with
    | [], _ => rw [hs1] at h1; simp at h1
    | [_], _ => rw [hs1] at h1; simp at h1
    | p0 :: p1 :: t1, [] => rw [hs1, hs2] at h12; simp at h12
    | p0 :: p1 :: t1, [q0] => rw [hs1, hs2] at h12; simp at h12
    | p0 :: p1 :: t1, q0 :: q1 :: t2 =>
        rw [hs1, hs2] at h12
        simp only [List.take_succ_cons, List.take_zero, List.cons.injEq] at h12
        obtain ⟨h0, h1', -⟩ := h12
        simp [h0, h1']
  unfold GetBucket
  rw [he]

/-! ## The hash function -/

/-- Bitwise or of disjoint operands is addition: `(a <<< k) ||| b` with
`b < 2 ^ k`. -/
theorem lor_mul_pow (k : Nat) : ∀ a b : Nat, b < 2 ^ k → (a * 2 ^ k) ||| b = a * 2 ^ k + b := by
  induction k with
  | zero =>
      intro a b hb
      have hb0 : b = 0 := by omega
      subst hb0
      simp
  | succ k ih =>
      intro a b hb
      have hpow : (2 : Nat) ^ (k + 1) = 2 * 2 ^ k := by rw [pow_succ]; ring
      have hb2 : b / 2 < 2 ^ k := by omega
      have hbit : Nat.bit (decide (b % 2 = 1)) (b / 2) = b := by
        rcases (by omega : b % 2 = 0 ∨ b % 2 = 1) with h | h
        · simp [Nat.bit_val, h]; omega
        · simp [Nat.bit_val, h]; omega
      have h1 : a * 2 ^ (k + 1) = Nat.bit false (a * 2 ^ k) := by
        simp [Nat.bit_val, hpow]; ring
      calc a * 2 ^ (k + 1) ||| b
          = Nat.bit false (a * 2 ^ k) ||| Nat.bit (decide (b % 2 = 1)) (b / 2) := by
            rw [h1, hbit]
        _ = Nat.bit (false || decide (b % 2 = 1)) ((a * 2 ^ k) ||| (b / 2)) :=
            Nat.lor_bit false (a * 2 ^ k) (decide (b % 2 = 1)) (b / 2)
        _ = Nat.bit (decide (b % 2 = 1)) (a * 2 ^ k + b / 2) := by
            rw [ih a (b / 2) hb2]
            simp
        _ = a * 2 ^ (k + 1) + b := by
            rcases (by omega : b % 2 = 0 ∨ b % 2 = 1) with h | h
            · simp [Nat.bit_val, h, hpow]; ring_nf; omega
            · simp [Nat.bit_val, h, hpow]; ring_nf; omega

/-- Every SHA-256 output byte is below 256. -/
theorem sha256Bytes_lt (msg : List Nat) : ∀ x ∈ sha256Bytes msg, x < 256 := by
  intro x hx
  simp only [sha256Bytes, List.mem_flatten, List.mem_map] at hx
  obtain ⟨l, ⟨w, -, rfl⟩, hxl⟩ := hx
  simp only [wordBytes, List.mem_cons, List.not_mem_nil, or_false] at hxl
  rcases hxl with rfl | rfl | rfl | rfl <;> exact Nat.mod_lt _ (by omega)

theorem sha256Bytes_getD_lt (msg : List Nat) (i : Nat) :
    (sha256Bytes msg).getD i 0 < 256 := by
  rw [List.getD_eq_getElem?_getD]
  by_cases h : i < (sha256Bytes msg).length
  · rw [List.getElem?_eq_getElem h]
    exact sha256Bytes_lt msg _ (List.getElem_mem h)
  · rw [List.getElem?_eq_none (by omega)]
    simp

/-- The closed form of `addBucket`'s insertion loop. -/
theorem addBucket_inner (b : String) (is : List Nat) :
    ∀ c : ConsistentHash,
      is.foldl
        (fun c i =>
          let key := hash (b ++ toString i)
          { c with keys := c.keys ++ [key], hashMap := (key, b) :: c.hashMap })
        c =
      { c with
        keys := c.keys ++ is.map (fun i => hash (b ++ toString i)),
        hashMap := (is.map (fun i => (hash (b ++ toString i), b))).reverse ++ c.hashMap } := by
  induction is with
  | nil => intro c; simp
  | cons hd tl ih =>
      intro c
      simp only [List.foldl_cons, ih, List.map_cons, List.reverse_cons, List.append_assoc,
        List.singleton_append, List.cons_append, List.nil_append]

/-- `addBucket` sorts the old points together with the replica points of
the new bucket and stacks the new bucket's map entries on top. -/
theorem addBucket_eq (ch : ConsistentHash) (b : String) :
    addBucket ch b =
      { ch with
        keys := List.insertionSort (fun a b => a ≤ b)
          (ch.keys ++ (List.range ch.replicas.toNat).map (fun i => hash (b ++ toString i))),
        hashMap :=
          ((List.range ch.replicas.toNat).map (fun i => (hash (b ++ toString i), b))).reverse
            ++ ch.hashMap } := by
  unfold addBucket
  rw [addBucket_inner]

/-- Claim C7: the ring's hash of a string is the first 4 bytes of its
SHA-256 digest assembled big-endian
(`d0 * 2^24 + d1 * 2^16 + d2 * 2^8 + d3`); the same function places the
replica points (`hash (partitionID ++ decimal replica index)`) and drives
lookup resolution (a lookup depends on the key only through
`hash (extractHashKey key)`). -/
theorem hash_first_four_sha256 :
    (∀ s : String,
      hash s =
        (sha256Bytes (strBytes s)).getD 0 0 * 2 ^ 24 +
        (sha256Bytes (strBytes s)).getD 1 0 * 2 ^ 16 +
        (sha256Bytes (strBytes s)).getD 2 0 * 2 ^ 8 +
        (sha256Bytes (strBytes s)).getD 3 0) ∧
    (∀ (ch : ConsistentHash) (b : String),
      ((addBucket ch b).keys : Multiset Nat) =
        (ch.keys : Multiset Nat) +
        (((List.range ch.replicas.toNat).map (fun i => hash (b ++ toString i)) :
          List Nat) : Multiset Nat)) ∧
    (∀ (ch : ConsistentHash) (k1 k2 : String),
      hash (extractHashKey k1) = hash (extractHashKey k2) →
      GetBucket ch k1 = GetBucket ch k2) := by
  refine ⟨?_, ?_, ?_⟩
  · intro s
    have hg := sha256Bytes_getD_lt (strBytes s)
    have p8 : (2 : Nat) ^ 8 = 256 := by norm_num
    have p16 : (2 : Nat) ^ 16 = 65536 := by norm_num
    have p24 : (2 : Nat) ^ 24 = 16777216 := by norm_num
    show ((sha256Bytes (strBytes s)).getD 0 0 <<< 24) |||
        ((sha256Bytes (strBytes s)).getD 1 0 <<< 16) |||
        ((sha256Bytes (strBytes s)).getD 2 0 <<< 8) |||
        (sha256Bytes (strBytes s)).getD 3 0 = _
    set d0 := (sha256Bytes (strBytes s)).getD 0 0 with hd0
    set d1 := (sha256Bytes (strBytes s)).getD 1 0 with hd1
    set d2 := (sha256Bytes (strBytes s)).getD 2 0 with hd2
    set d3 := (sha256Bytes (strBytes s)).getD 3 0 with hd3
    have b0 := hg 0
    have b1 := hg 1
    have b2 := hg 2
    have b3 := hg 3
    rw [← hd0] at b0
    rw [← hd1] at b1
    rw [← hd2] at b2
    rw [← hd3] at b3
    rw [Nat.shiftLeft_eq, Nat.shiftLeft_eq, Nat.shiftLeft_eq, Nat.lor_assoc, Nat.lor_assoc]
    have e1 : (d2 * 2 ^ 8) ||| d3 = d2 * 2 ^ 8 + d3 :=
      lor_mul_pow 8 d2 d3 (by omega)
    have e2 : (d1 * 2 ^ 16) ||| (d2 * 2 ^ 8 + d3) = d1 * 2 ^ 16 + (d2 * 2 ^ 8 + d3) :=
      lor_mul_pow 16 d1 _ (by rw [p16, p8]; omega)
    have e3 : (d0 * 2 ^ 24) ||| (d1 * 2 ^ 16 + (d2 * 2 ^ 8 + d3)) =
        d0 * 2 ^ 24 + (d1 * 2 ^ 16 + (d2 * 2 ^ 8 + d3)) :=
      lor_mul_pow 24 d0 _ (by rw [p24, p16, p8]; omega)
    rw [e1, e2, e3]
    ring
  · intro ch b
    rw [addBucket_eq]
    have hperm := List.perm_insertionSort (fun a b => a ≤ b)
      (ch.keys ++ (List.range ch.replicas.toNat).map (fun i => hash (b ++ toString i)))
    calc ((List.insertionSort (fun a b => a ≤ b)
          (ch.keys ++ (List.range ch.replicas.toNat).map (fun i => hash (b ++ toString i)))
          : List Nat) : Multiset Nat)
        = ((ch.keys ++ (List.range ch.replicas.toNat).map (fun i => hash (b ++ toString i))
          : List Nat) : Multiset Nat) := Quot.sound hperm
      _ = _ := by rw [← Multiset.coe_add]
  · intro ch k1 k2 h
    simp only [GetBucket, h]

/-! ## Ring construction lemmas -/

theorem addBucket_replicas (c : ConsistentHash) (b : String) :
    (addBucket c b).replicas = c.replicas := by
  rw [addBucket_eq]

theorem addBucket_buckets (c : ConsistentHash) (b : String) :
    (addBucket c b).buckets = c.buckets := by
  rw [addBucket_eq]

theorem addBucket_keys_length (c : ConsistentHash) (b : String) :
    (addBucket c b).keys.length = c.keys.length + c.replicas.toNat := by
  rw [addBucket_eq]
  simp [List.length_insertionSort]

theorem foldl_addBucket_replicas (bs : List String) :
    ∀ c : ConsistentHash, (bs.foldl addBucket c).replicas = c.replicas := by
  induction bs with
  | nil => intro c; rfl
  | cons b tl ih => intro c; rw [List.foldl_cons, ih, addBucket_replicas]

theorem foldl_addBucket_buckets (bs : List String) :
    ∀ c : ConsistentHash, (bs.foldl addBucket c).buckets = c.buckets := by
  induction bs with
  | nil => intro c; rfl
  | cons b tl ih => intro c; rw [List.foldl_cons, ih, addBucket_buckets]

theorem foldl_addBucket_keys_length (bs : List String) :
    ∀ c : ConsistentHash,
      (bs.foldl addBucket c).keys.length =
        c.keys.length + bs.length * c.replicas.toNat := by
  induction bs with
  | nil => intro c; simp
  | cons b tl ih =>
      intro c
      rw [List.foldl_cons, ih, addBucket_keys_length, addBucket_replicas]
      simp [List.length_cons]
      ring

theorem newConsistentHash_replicas (r : Int) (B : List String) :
    (NewConsistentHash r B).replicas = r :=
  foldl_addBucket_replicas B _

theorem newConsistentHash_buckets (r : Int) (B : List String) :
    (NewConsistentHash r B).buckets = B :=
  foldl_addBucket_buckets B _

theorem newConsistentHash_keys_length (r : Int) (B : List String) :
    (NewConsistentHash r B).keys.length = B.length * r.toNat := by
  unfold NewConsistentHash
  rw [foldl_addBucket_keys_length]
  simp

theorem foldl_addBucket_sorted (bs : List String) :
    ∀ c : ConsistentHash, List.Sorted (· ≤ ·) c.keys →
      List.Sorted (· ≤ ·) ((bs.foldl addBucket c).keys) := by
  induction bs with
  | nil => intro c hc; exact hc
  | cons b tl ih =>
      intro c hc
      rw [List.foldl_cons]
      refine ih _ ?_
      rw [addBucket_eq]
      exact List.sorted_insertionSort _ _

theorem newConsistentHash_sorted (r : Int) (B : List String) :
    List.Sorted (· ≤ ·) (NewConsistentHash r B).keys :=
  foldl_addBucket_sorted B _ (by simp)

/-- Claim C1 counterexample: ring construction performs no validation and
cannot fail.  With an empty bucket list (or a non-positive replica count)
it succeeds and returns a pointless but usable ring on which `GetBucket`
answers `""`, instead of returning an error or preventing startup. -/
theorem newConsistentHash_no_validation :
    NewConsistentHash 100 [] =
      { replicas := 100, keys := [], hashMap := [], buckets := [] } ∧
    GetBucket (NewConsistentHash 100 []) "tenant/block/data" = "" ∧
    NewConsistentHash 0 ["bucket1"] =
      { replicas := 0, keys := [], hashMap := [], buckets := ["bucket1"] } ∧
    GetBucket (NewConsistentHash 0 ["bucket1"]) "tenant/block/data" = "" := by
  refine ⟨rfl, rfl, rfl, rfl⟩

/-- Claim C1 (amended): `NewConsistentHash` is total and validates
nothing: for every bucket list and every replica count, empty or
non-positive included, it returns a ring recording exactly those
parameters, so construction never reports a configuration error. -/
theorem newConsistentHash_total (r : Int) (B : List String) :
    (NewConsistentHash r B).replicas = r ∧ (NewConsistentHash r B).buckets = B :=
  ⟨newConsistentHash_replicas r B, newConsistentHash_buckets r B⟩

theorem foldl_addBucket_keys_nil (bs : List String) :
    ∀ c : ConsistentHash, c.replicas ≤ 0 → c.keys = [] →
      (bs.foldl addBucket c).keys = [] := by
  induction bs with
  | nil => intro c _ hk; exact hk
  | cons b tl ih =>
      intro c hr hk
      rw [List.foldl_cons]
      refine ih _ (by rw [addBucket_replicas]; exact hr) ?_
      rw [addBucket_eq]
      have : c.replicas.toNat = 0 := by omega
      simp [this, hk]

/-- Claim C10: with an empty bucket list or a non-positive replica count
the constructed ring has no points, construction itself succeeds and
records the configuration, and `GetBucket` returns the empty string for
every key instead of failing. -/
theorem degenerate_ring_get_bucket (r : Int) (B : List String)
    (h : B = [] ∨ r ≤ 0) (k : String) :
    (NewConsistentHash r B).keys = [] ∧
    GetBucket (NewConsistentHash r B) k = "" ∧
    (NewConsistentHash r B).buckets = B := by
  have hkeys : (NewConsistentHash r B).keys = [] := by
    rcases h with h | h
    · subst h; rfl
    · exact foldl_addBucket_keys_nil B _ (by simpa using h) rfl
  refine ⟨hkeys, ?_, newConsistentHash_buckets r B⟩
  unfold GetBucket
  rw [hkeys]
  rfl

/-! ## Binary search (`sort.Search`) specification -/

theorem list_getD_eq_getElem (l : List Nat) (i : Nat) (h : i < l.length) :
    l.getD i 0 = l[i] := by
  rw [List.getD_eq_getElem?_getD, List.getElem?_eq_getElem h]
  rfl

/-- The `sort.Search` loop: with enough fuel and a predicate monotone
below `j`, it lands on the least index of `[i, j)` satisfying the
predicate (or on `j`). -/
theorem sortSearchAux_spec (f : Nat → Bool) :
    ∀ (fuel i j : Nat), j - i ≤ fuel → i ≤ j →
      (∀ a b : Nat, a ≤ b → b < j → f a = true → f b = true) →
      i ≤ sortSearchAux f fuel i j ∧
      sortSearchAux f fuel i j ≤ j ∧
      (∀ x, i ≤ x → x < sortSearchAux f fuel i j → f x = false) ∧
      (sortSearchAux f fuel i j < j → f (sortSearchAux f fuel i j) = true) := by
  intro fuel
  induction fuel with
  | zero =>
      intro i j hd hij _
      have hij' : i = j := by omega
      subst hij'
      simp only [sortSearchAux]
      refine ⟨Nat.le_refl _, Nat.le_refl _, ?_, ?_⟩
      · intro x h1 h2; omega
      · intro h1; omega
  | succ fuel ih =>
      intro i j hd hij hmono
      simp only [sortSearchAux]
      by_cases hij' : i < j
      · rw [if_pos hij']
        by_cases hf : f ((i + j) / 2)
        · rw [if_pos hf]
          obtain ⟨h1, h2, h3, h4⟩ :=
            ih i ((i + j) / 2) (by omega) (by omega)
              (fun a b hab hb ha => hmono a b hab (by omega) ha)
          refine ⟨h1, by omega, h3, ?_⟩
          intro hlt
          by_cases hr : sortSearchAux f fuel i ((i + j) / 2) < (i + j) / 2
          · exact h4 hr
          · have heq : sortSearchAux f fuel i ((i + j) / 2) = (i + j) / 2 := by omega
            rw [heq]
            exact hf
        · rw [if_neg hf]
          obtain ⟨h1, h2, h3, h4⟩ :=
            ih ((i + j) / 2 + 1) j (by omega) (by omega) hmono
          refine ⟨by omega, h2, ?_, h4⟩
          intro x hx hxr
          by_cases hxm : (i + j) / 2 + 1 ≤ x
          · exact h3 x hxm hxr
          · cases hfx : f x with
            | false => rfl
            | true =>
                exact absurd (hmono x ((i + j) / 2) (by omega) (by omega) hfx)
                  (by simpa using hf)
      · rw [if_neg hij']
        refine ⟨Nat.le_refl _, by omega, ?_, ?_⟩
        · intro x h1 h2; omega
        · intro h1; omega

theorem sortSearch_spec (n : Nat) (f : Nat → Bool)
    (hmono : ∀ a b : Nat, a ≤ b → b < n → f a = true → f b = true) :
    sortSearch n f ≤ n ∧
    (∀ x, x < sortSearch n f → f x = false) ∧
    (sortSearch n f < n → f (sortSearch n f) = true) := by
  obtain ⟨-, h2, h3, h4⟩ :=
    sortSearchAux_spec f n 0 n (by omega) (Nat.zero_le n) hmono
  exact ⟨h2, fun x hx => h3 x (Nat.zero_le x) hx, h4⟩

/-- `find?` returns the element at the least satisfying index. -/
theorem find?_eq_of_first_index {p : Nat → Bool} :
    ∀ (l : List Nat) (r : Nat), r < l.length → p (l.getD r 0) = true →
      (∀ x, x < r → p (l.getD x 0) = false) →
      l.find? p = some (l.getD r 0) := by
  intro l
  induction l with
  | nil => intro r hr; simp at hr
  | cons a t ih =>
      intro r hr hp hprev
      cases r with
      | zero =>
          rw [List.getD_cons_zero] at hp ⊢
          exact List.find?_cons_of_pos t hp
      | succ r' =>
          have h0 : p a = false := by
            have := hprev 0 (Nat.succ_pos r')
            rwa [List.getD_cons_zero] at this
          rw [List.getD_cons_succ]
          rw [List.find?_cons_of_neg t (by simp [h0])]
          refine ih r' (by simpa using hr) (by simpa using hp) ?_
          intro x hx
          have := hprev (x + 1) (by omega)
          rwa [List.getD_cons_succ] at this

/-- In a `≤`-sorted list, `getD` with default `0` is monotone on indices
below the length. -/
theorem sorted_getD_mono {l : List Nat} (hs : List.Sorted (· ≤ ·) l)
    {a b : Nat} (hab : a ≤ b) (hb : b < l.length) :
    l.getD a 0 ≤ l.getD b 0 := by
  rcases Nat.eq_or_lt_of_le hab with rfl | hlt
  · exact Nat.le_refl _
  · rw [list_getD_eq_getElem l a (by omega), list_getD_eq_getElem l b hb]
    exact List.pairwise_iff_get.mp hs ⟨a, by omega⟩ ⟨b, hb⟩ hlt

/-- Claim C3: on a non-empty (sorted) ring, resolution returns the bucket
of the first ring point `≥ hash(routingKey)` — `find?` on the ascending
point list — and, when no point qualifies, wraps around to the bucket of
the head point, which is the smallest point of the ring; it never fails. -/
theorem getBucket_first_point (ch : ConsistentHash) (hne : ch.keys ≠ [])
    (hs : List.Sorted (· ≤ ·) ch.keys) (k : String) :
    GetBucket ch k =
      mapGet ch.hashMap
        ((ch.keys.find? (fun x => hash (extractHashKey k) ≤ x)).getD
          (ch.keys.headD 0)) ∧
    ∀ x ∈ ch.keys, ch.keys.headD 0 ≤ x := by
  have hn : 0 < ch.keys.length := List.length_pos.mpr hne
  have hmin : ∀ x ∈ ch.keys, ch.keys.headD 0 ≤ x := by
    cases hk : ch.keys with
    | nil => exact absurd hk hne
    | cons a t =>
        intro x hx
        rcases List.mem_cons.mp hx with rfl | hxt
        · exact Nat.le_refl _
        · exact ((List.sorted_cons.mp (hk ▸ hs)).1 x hxt)
  refine ⟨?_, hmin⟩
  have hmono : ∀ a b : Nat, a ≤ b → b < ch.keys.length →
      (decide (hash (extractHashKey k) ≤ ch.keys.getD a 0)) = true →
      (decide (hash (extractHashKey k) ≤ ch.keys.getD b 0)) = true := by
    intro a b hab hb ha
    have h1 := sorted_getD_mono hs hab hb
    simp only [decide_eq_true_eq] at ha ⊢
    omega
  obtain ⟨hr1, hr2, hr3⟩ :=
    sortSearch_spec ch.keys.length
      (fun i => decide (hash (extractHashKey k) ≤ ch.keys.getD i 0)) hmono
  simp only [GetBucket]
  rw [if_neg (by omega : ¬ch.keys.length = 0)]
  by_cases hcase :
      sortSearch ch.keys.length
        (fun i => decide (hash (extractHashKey k) ≤ ch.keys.getD i 0)) =
      ch.keys.length
  · -- no point is ≥ the hash: wraparound to the head (smallest) point
    have hnone : ch.keys.find? (fun x => hash (extractHashKey k) ≤ x) = none := by
      rw [List.find?_eq_none]
      intro y hy
      obtain ⟨i, hi, rfl⟩ := List.mem_iff_getElem.mp hy
      have := hr2 i (by omega)
      rw [list_getD_eq_getElem ch.keys i hi] at this
      simpa using this
    rw [hnone, hcase, if_pos rfl]
    cases hk : ch.keys with
    | nil => exact absurd hk hne
    | cons a t => simp
  · -- the search found the first point ≥ the hash
    have hlt : sortSearch ch.keys.length
        (fun i => decide (hash (extractHashKey k) ≤ ch.keys.getD i 0)) <
        ch.keys.length := by omega
    have hsome :
        ch.keys.find? (fun x => hash (extractHashKey k) ≤ x) =
        some (ch.keys.getD
          (sortSearch ch.keys.length
            (fun i => decide (hash (extractHashKey k) ≤ ch.keys.getD i 0))) 0) := by
      refine find?_eq_of_first_index ch.keys _ hlt (hr3 hlt) ?_
      intro x hx
      exact hr2 x hx
    rw [hsome, if_neg hcase]
    rfl

/-! ## Membership of resolved buckets -/

/-- The construction invariant: every map value is a configured bucket
and every ring point has a map entry. -/
theorem foldl_addBucket_inv (B0 : List String) :
    ∀ (bs : List String), (∀ b ∈ bs, b ∈ B0) →
    ∀ c : ConsistentHash,
      (∀ p ∈ c.hashMap, p.2 ∈ B0) →
      (∀ x ∈ c.keys, ∃ p ∈ c.hashMap, p.1 = x) →
      (∀ p ∈ (bs.foldl addBucket c).hashMap, p.2 ∈ B0) ∧
      (∀ x ∈ (bs.foldl addBucket c).keys, ∃ p ∈ (bs.foldl addBucket c).hashMap, p.1 = x) := by
  intro bs
  induction bs with
  | nil => intro _ c h1 h2; exact ⟨h1, h2⟩
  | cons b tl ih =>
      intro hbs c h1 h2
      rw [List.foldl_cons]
      refine ih (fun x hx => hbs x (List.mem_cons_of_mem b hx)) (addBucket c b) ?_ ?_
      · intro p hp
        rw [addBucket_eq] at hp
        simp only [List.mem_append, List.mem_reverse, List.mem_map,
          List.mem_range] at hp
        rcases hp with ⟨i, -, rfl⟩ | hp
        · exact hbs b (List.mem_cons_self b tl)
        · exact h1 p hp
      · intro x hx
        rw [addBucket_eq] at hx ⊢
        simp only [List.mem_insertionSort, List.mem_append, List.mem_map,
          List.mem_range] at hx
        rcases hx with hx | ⟨i, hi, rfl⟩
        · obtain ⟨p, hp, hpx⟩ := h2 x hx
          exact ⟨p, by simp [List.mem_append, hp], hpx⟩
        · refine ⟨(hash (b ++ toString i), b), ?_, rfl⟩
          simp only [List.mem_append, List.mem_reverse, List.mem_map, List.mem_range]
          exact Or.inl ⟨i, hi, rfl⟩

/-- Claim C6: for every valid configuration the resolved bucket of any
key is one of the configured partitions, and `GetAllBuckets` is exactly
the configured partition list in configuration order. -/
theorem route_membership (r : Int) (B : List String) (hB : B ≠ []) (hr : 0 < r)
    (k : String) :
    GetBucket (NewConsistentHash r B) k ∈ GetAllBuckets (NewConsistentHash r B) ∧
    GetAllBuckets (NewConsistentHash r B) = B := by
  have hbuckets : GetAllBuckets (NewConsistentHash r B) = B :=
    newConsistentHash_buckets r B
  refine ⟨?_, hbuckets⟩
  rw [hbuckets]
  set ch := NewConsistentHash r B with hch
  have hlen : ch.keys.length = B.length * r.toNat := newConsistentHash_keys_length r B
  have hn : 0 < ch.keys.length := by
    rw [hlen]
    have hB' : 0 < B.length := List.length_pos.mpr hB
    have hr' : 0 < r.toNat := by omega
    positivity
  obtain ⟨hinv1, hinv2⟩ :=
    foldl_addBucket_inv B B (fun b hb => hb)
      { replicas := r, keys := [], hashMap := [], buckets := B }
      (by intro p hp; simp at hp) (by intro x hx; simp at hx)
  have hsort : List.Sorted (· ≤ ·) ch.keys := by
    rw [hch]
    exact newConsistentHash_sorted r B
  have hmono : ∀ a b : Nat, a ≤ b → b < ch.keys.length →
      (decide (hash (extractHashKey k) ≤ ch.keys.getD a 0)) = true →
      (decide (hash (extractHashKey k) ≤ ch.keys.getD b 0)) = true := by
    intro a b hab hb ha
    have h1 := sorted_getD_mono hsort hab hb
    simp only [decide_eq_true_eq] at ha ⊢
    omega
  obtain ⟨hr1, -, -⟩ :=
    sortSearch_spec ch.keys.length
      (fun i => decide (hash (extractHashKey k) ≤ ch.keys.getD i 0)) hmono
  simp only [GetBucket]
  rw [if_neg (by omega : ¬ch.keys.length = 0)]
  set idx := sortSearch ch.keys.length
    (fun i => decide (hash (extractHashKey k) ≤ ch.keys.getD i 0)) with hidx
  have hidx' : (if idx = ch.keys.length then 0 else idx) < ch.keys.length := by
    by_cases hc : idx = ch.keys.length
    · rw [if_pos hc]; omega
    · rw [if_neg hc]; omega
  set i' := if idx = ch.keys.length then 0 else idx with hi'
  have hxmem : ch.keys.getD i' 0 ∈ ch.keys := by
    rw [list_getD_eq_getElem ch.keys i' hidx']
    exact List.getElem_mem hidx'
  obtain ⟨p, hp, hpx⟩ := hinv2 (ch.keys.getD i' 0) hxmem
  have hisSome : (ch.hashMap.find? (fun pr => pr.1 == ch.keys.getD i' 0)).isSome := by
    rw [List.find?_isSome]
    exact ⟨p, hp, by simp [hpx]⟩
  obtain ⟨q, hq⟩ := Option.isSome_iff_exists.mp hisSome
  have hqmem : q ∈ ch.hashMap := List.mem_of_find?_eq_some hq
  unfold mapGet
  rw [hq]
  exact hinv1 q hqmem

/-! ## Concrete witnesses -/

theorem derive_routing_key_witness :
    (('/' : Char) ∉ "tenant".data) ∧ (('/' : Char) ∉ "block".data) ∧
    (('/' : Char) ∉ "simple-file".data) ∧
    (extractHashKey
        (String.mk ("tenant".data ++ '/' :: ("block".data ++ '/' :: "rest/more".data))) =
      String.mk ("tenant".data ++ '/' :: "block".data) ∧
     extractHashKey (String.mk ("tenant".data ++ '/' :: "block".data)) =
      String.mk ("tenant".data ++ '/' :: "block".data) ∧
     extractHashKey "simple-file" = "simple-file" ∧
     extractHashKey "simple-file" = "simple-file") :=
  ⟨by decide, by decide, by decide,
    derive_routing_key "tenant".data "block".data "rest/more".data
      (by decide) (by decide) "simple-file" (by decide)⟩

theorem route_prefix_grouping_witness :
    (["bucket1", "bucket2"] ≠ ([] : List String)) ∧ ((0 : Int) < 100) ∧
    2 ≤ (goSplitN '/' 3 "single-tenant/abc123/bloom-0".data).length ∧
    (goSplitN '/' 3 "single-tenant/abc123/bloom-0".data).take 2 =
      (goSplitN '/' 3 "single-tenant/abc123/chunks-001".data).take 2 ∧
    GetBucket (NewConsistentHash 100 ["bucket1", "bucket2"])
        "single-tenant/abc123/bloom-0" =
      GetBucket (NewConsistentHash 100 ["bucket1", "bucket2"])
        "single-tenant/abc123/chunks-001" :=
  ⟨by decide, by decide, by decide, by decide,
    route_prefix_grouping 100 ["bucket1", "bucket2"] (by decide) (by decide)
      "single-tenant/abc123/bloom-0" "single-tenant/abc123/chunks-001"
      (by decide) (by decide)⟩

theorem getBucket_first_point_witness :
    (([5, 10] : List Nat) ≠ []) ∧ List.Sorted (· ≤ ·) ([5, 10] : List Nat) ∧
    (GetBucket ⟨1, [5, 10], [(5, "a"), (10, "b")], ["a", "b"]⟩ "k" =
      mapGet [(5, "a"), (10, "b")]
        ((([5, 10] : List Nat).find?
          (fun x => hash (extractHashKey "k") ≤ x)).getD
            (([5, 10] : List Nat).headD 0)) ∧
     ∀ x ∈ ([5, 10] : List Nat), ([5, 10] : List Nat).headD 0 ≤ x) :=
  ⟨by decide, by decide,
    getBucket_first_point ⟨1, [5, 10], [(5, "a"), (10, "b")], ["a", "b"]⟩
      (by decide) (by decide) "k"⟩

theorem route_membership_witness :
    ((["a"] : List String) ≠ []) ∧ ((0 : Int) < 1) ∧
    (GetBucket (NewConsistentHash 1 ["a"]) "x/y/z" ∈
        GetAllBuckets (NewConsistentHash 1 ["a"]) ∧
     GetAllBuckets (NewConsistentHash 1 ["a"]) = ["a"]) :=
  ⟨by decide, by decide,
    route_membership 1 ["a"] (by decide) (by decide) "x/y/z"⟩

theorem hash_first_four_sha256_witness :
    (hash (extractHashKey "a/b/c") = hash (extractHashKey "a/b/d")) ∧
    GetBucket ⟨1, [5], [(5, "a")], ["a"]⟩ "a/b/c" =
      GetBucket ⟨1, [5], [(5, "a")], ["a"]⟩ "a/b/d" :=
  have h : hash (extractHashKey "a/b/c") = hash (extractHashKey "a/b/d") :=
    congrArg hash (by decide)
  ⟨h, hash_first_four_sha256.2.2 ⟨1, [5], [(5, "a")], ["a"]⟩ "a/b/c" "a/b/d" h⟩

theorem degenerate_ring_get_bucket_witness :
    ((["x"] : List String) = [] ∨ (0 : Int) ≤ 0) ∧
    ((NewConsistentHash 0 ["x"]).keys = [] ∧
     GetBucket (NewConsistentHash 0 ["x"]) "a/b" = "" ∧
     (NewConsistentHash 0 ["x"]).buckets = ["x"]) :=
  ⟨Or.inr (by decide),
    degenerate_ring_get_bucket 0 ["x"] (Or.inr (by decide)) "a/b"⟩

end TempoS3Shard
